import Mathlib

/-!
# Verification of the ABI schema-resolution layer

Shallow embedding of the ABI type-resolution module (`src/chain/abi.ts`) and
the `Variant` tagged-union value (`src/chain/variant.ts`).  Strings are
modelled as `List Char`; the mutable per-pass node graph of the resolver is
modelled arena-style: nodes live in a list and refer to each other by index,
and the pass-local cache maps full type-name strings to arena indices.
General recursion in `resolve` is modelled with a fuel parameter; the
termination theorem shows the chosen fuel bound always suffices.
-/

namespace Abi

/-- Strings, modelled as lists of characters so that the suffix-stripping
grammar can be reasoned about directly. -/
abbrev Str := List Char

/-- Shorthand to build a `Str` from a string literal. -/
def str (s : String) : Str := s.toList

/-- JS `s.endsWith(suffix)`. -/
def strEndsWith (s suffix : Str) : Bool := suffix.isSuffixOf s

/-- JS `s.slice(0, -n)`: drop the last `n` characters. -/
def dropRight (s : Str) (n : Nat) : Str := s.take (s.length - n)

/-- A type alias entry (`ABI.TypeDef`): `new_type_name` renames `type`. -/
structure TypeDef where
  new_type_name : Str
  type : Str
  deriving DecidableEq, Repr

/-- A struct field (`ABI.Field`). -/
structure Field where
  name : Str
  type : Str
  deriving DecidableEq, Repr

/-- A struct type (`ABI.Struct`): named fields plus a base struct name
(empty string when there is no base). -/
structure Struct where
  name : Str
  base : Str
  fields : List Field
  deriving DecidableEq, Repr

/-- A variant type (`ABI.Variant`): an ordered list of alternative
type names. -/
structure VariantDef where
  name : Str
  types : List Str
  deriving DecidableEq, Repr

/-- The schema store (`class ABI`): lists of aliases, variants and structs.
(`version`, `actions`, `tables` and `ricardian_clauses` also exist in the
source but are not consulted by the resolver; `actions` lookups go through
the external `Name` type and are out of scope here.) -/
structure ABI where
  types : List TypeDef
  variants : List VariantDef
  structs : List Struct
  deriving DecidableEq, Repr

/-- A resolved type node (`ABI.ResolvedType`).  `fields`, `variant` and
`ref` hold arena indices in place of the source's object references. -/
structure ResolvedType where
  name : Str
  id : Nat
  isArray : Bool
  isOptional : Bool
  isExtension : Bool
  fields : Option (List (Str × Nat)) := none
  variant : Option (List Nat) := none
  ref : Option Nat := none
  deriving DecidableEq, Repr

/-- One step of the constructor's suffix parsing: if `s` ends with
`suffix`, strip it (`slice(0, -suffix.length)`) and record the flag. -/
def stripIf (s suffix : Str) : Str × Bool :=
  if strEndsWith s suffix then (dropRight s suffix.length, true)
  else (s, false)

/-- One step of `typeName`'s rendering: re-append `suffix` when the flag
was set. -/
def applyIf (s suffix : Str) (b : Bool) : Str :=
  if b then s ++ suffix else s

namespace ResolvedType

/-- The `ResolvedType` constructor: parse modifier suffixes off `fullName`,
stripping a trailing `$`, then a trailing `?`, then a trailing `[]`. -/
def make (fullName : Str) (id : Nat) : ResolvedType :=
  let p1 := stripIf fullName (str "$")
  let p2 := stripIf p1.1 (str "?")
  let p3 := stripIf p2.1 (str "[]")
  { name := p3.1, id := id, isArray := p3.2, isOptional := p2.2,
    isExtension := p1.2 }

/-- The `typeName` getter: base name with suffixes re-appended, array
marker first, then optional, then extension. -/
def typeName (t : ResolvedType) : Str :=
  applyIf (applyIf (applyIf t.name (str "[]") t.isArray)
    (str "?") t.isOptional) (str "$") t.isExtension

end ResolvedType

/-- Source `ABI.getStruct`: first struct with the given name, if any. -/
def ABI.getStruct (abi : ABI) (name : Str) : Option Struct :=
  abi.structs.find? (fun s => s.name = name)

/-- Source `ABI.getVariant`: first variant with the given name, if any. -/
def ABI.getVariant (abi : ABI) (name : Str) : Option VariantDef :=
  abi.variants.find? (fun v => v.name = name)

/-- The body of `resolveStruct`'s do-while loop.  Each iteration prepends
`top`'s own declared fields (the source `unshift`s them in reverse index
order, which amounts to `top.fields ++ rv`), records `top.name` as seen,
bails out with `none` when the base name was already seen (circular
reference), and otherwise follows the base.  `fuel` bounds the iteration
count for Lean's termination checker; `resolveStruct` supplies enough. -/
def resolveStructGo (abi : ABI) : Nat → Struct → List Field → List Str →
    Option (List Field)
  | 0, _, _, _ => none
  | fuel + 1, top, rv, seen =>
    let rv' := top.fields ++ rv
    let seen' := top.name :: seen
    if top.base ∈ seen' then none
    else
      match abi.getStruct top.base with
      | none => some rv'
      | some next => resolveStructGo abi fuel next rv' seen'

/-- Source `ABI.resolveStruct`: flatten a struct's field list through its base
chain; `none` when the struct does not exist or its base chain is
circular. -/
def ABI.resolveStruct (abi : ABI) (name : Str) : Option (List Field) :=
  match abi.getStruct name with
  | none => none
  | some top => resolveStructGo abi (abi.structs.length + 1) top [] []

/-- The pass-local resolver state: the arena of nodes created so far (the
source's mutably-linked objects, referenced by index), the cache from full
type names to arena indices (`types` in the source), and the shared id
counter (`ctx.id`). -/
structure RState where
  arena : List ResolvedType
  cache : List (Str × Nat)
  nextId : Nat
  deriving DecidableEq, Repr

/-- Lookup in the pass-local cache (`types[name]`). -/
def lookupCache : List (Str × Nat) → Str → Option Nat
  | [], _ => none
  | (k, v) :: rest, key => if k = key then some v else lookupCache rest key

/-- All type-name strings the resolver can recurse into: alias targets,
struct field types, and variant alternatives. -/
def schemaNames (abi : ABI) : List Str :=
  abi.types.map (fun td => td.type)
    ++ abi.structs.flatMap (fun s => s.fields.map (fun f => f.type))
    ++ abi.variants.flatMap (fun v => v.types)

/-- Map a state-threading partial function over a list, left to right,
propagating failure (the shape of the source's `Array.map` calls whose
callback touches the shared cache and counter). -/
def mapWithState (f : α → σ → Option (β × σ)) : List α → σ → Option (List β × σ)
  | [], s => some ([], s)
  | x :: rest, s =>
    match f x s with
    | none => none
    | some (b, s') =>
      match mapWithState f rest s' with
      | none => none
      | some (bs, s'') => some (b :: bs, s'')

/-- Source `ABI.resolve`: look up the full name in the pass-local cache; on a miss
allocate a node (pre-incremented id), register it in the cache keyed by its
`typeName` *before* resolving children, then populate exactly one of
`ref` (alias), `fields` (struct) or `variant`, or none (builtin/unknown).
`fuel` bounds recursion depth; the termination theorem shows the bound
chosen by `resolveType` always suffices. -/
def resolveGo (abi : ABI) : Nat → Str → RState → Option (Nat × RState)
  | 0, _, _ => none
  | fuel + 1, name, st =>
    match lookupCache st.cache name with
    | some idx => some (idx, st)
    | none =>
      let node := ResolvedType.make name (st.nextId + 1)
      let idx := st.arena.length
      let st1 : RState :=
        ⟨st.arena ++ [node], (node.typeName, idx) :: st.cache, st.nextId + 1⟩
      match abi.types.find? (fun td => td.new_type_name = node.name) with
      | some al =>
        match resolveGo abi fuel al.type st1 with
        | none => none
        | some (ridx, st2) =>
          some (idx, { st2 with
            arena := st2.arena.set idx { node with ref := some ridx } })
      | none =>
        match abi.resolveStruct node.name with
        | some fs =>
          match mapWithState
              (fun (f : Field) st' =>
                match resolveGo abi fuel f.type st' with
                | none => none
                | some (i, st'') => some ((f.name, i), st''))
              fs st1 with
          | none => none
          | some (pairs, st2) =>
            some (idx, { st2 with
              arena := st2.arena.set idx { node with fields := some pairs } })
        | none =>
          match abi.getVariant node.name with
          | some v =>
            match mapWithState (fun (n : Str) st' => resolveGo abi fuel n st')
                v.types st1 with
            | none => none
            | some (idxs, st2) =>
              some (idx, { st2 with
                arena := st2.arena.set idx { node with variant := some idxs } })
          | none => some (idx, st1)

/-- Source `ABI.resolveType`: run `resolve` on a fresh pass-local cache and id
counter.  The fuel bound `|schemaNames| + 2` is shown sufficient by the
termination theorem. -/
def ABI.resolveType (abi : ABI) (name : Str) : Option (Nat × RState) :=
  resolveGo abi ((schemaNames abi).length + 2) name ⟨[], [], 0⟩

/-- Relation stating that `c'` preserves every binding of `c` (the cache only ever gains
entries during a resolution pass). -/
def cacheLe (c c' : List (Str × Nat)) : Prop :=
  ∀ k v, lookupCache c k = some v → lookupCache c' k = some v

/-- The names the resolver could still recurse into but has not cached:
the termination measure. -/
def missing (abi : ABI) (c : List (Str × Nat)) : Nat :=
  ((schemaNames abi).filter (fun n => (lookupCache c n).isNone)).length

/-- How many of a node's `fields` / `variant` / `ref` slots are
populated. -/
def popCount (t : ResolvedType) : Nat :=
  (if t.fields.isSome then 1 else 0) + (if t.variant.isSome then 1 else 0)
    + (if t.ref.isSome then 1 else 0)

/-- All nodes in a state's arena have at most one slot populated. -/
def arenaOk (s : RState) : Prop := ∀ t ∈ s.arena, popCount t ≤ 1

/-! ### Specification-side description of struct flattening (§4.3) -/

/-- The base chain as the spec describes it, most-derived struct first:
walk from the named struct towards its base-most ancestor, stopping when
the base name is not a declared struct, and failing when the base name
was already visited. -/
def specStructChain (abi : ABI) : Nat → Struct → List Str →
    Option (List Struct)
  | 0, _, _ => none
  | fuel + 1, top, seen =>
    let seen' := top.name :: seen
    if top.base ∈ seen' then none
    else
      match abi.getStruct top.base with
      | none => some [top]
      | some next =>
        (specStructChain abi fuel next seen').map (fun ch => top :: ch)

/-- The spec's wording of the flattened field list: base-most struct's
fields first, most-derived struct's last, each struct's own fields in
declared order — i.e. the chain reversed and concatenated. -/
def specFlattenedFields (abi : ABI) (name : Str) : Option (List Field) :=
  match abi.getStruct name with
  | none => none
  | some top =>
    (specStructChain abi (abi.structs.length + 1) top []).map
      (fun ch => ch.reverse.flatMap (fun s => s.fields))

/-! ### Example schemas used by the concrete parts of the claims -/

/-- A struct `B` with two fields and no base. -/
def exStructB : Struct :=
  ⟨str "B", str "", [⟨str "b0", str "uint8"⟩, ⟨str "b1", str "uint16"⟩]⟩

/-- A struct `D` with base `B` and one own field. -/
def exStructD : Struct := ⟨str "D", str "B", [⟨str "d0", str "uint32"⟩]⟩

/-- Schema with the acyclic inheritance pair `D extends B`. -/
def abiBD : ABI := ⟨[], [], [exStructB, exStructD]⟩

/-- Schema where struct `A` names itself as base. -/
def abiSelfLoop : ABI :=
  ⟨[], [], [⟨str "A", str "A", [⟨str "x", str "uint8"⟩]⟩]⟩

/-- Schema where structs `A` and `B` name each other as base. -/
def abiMutLoop : ABI :=
  ⟨[], [], [⟨str "A", str "B", [⟨str "a0", str "uint8"⟩]⟩,
            ⟨str "B", str "A", [⟨str "b0", str "uint8"⟩]⟩]⟩

/-- Schema whose struct `s` references both `foo` and `foo[]`. -/
def abiFooPair : ABI :=
  ⟨[], [], [⟨str "s", str "", [⟨str "a", str "foo"⟩, ⟨str "b", str "foo[]"⟩]⟩]⟩

/-! ### The Variant runtime value (`src/chain/variant.ts`)

`ABITypeDescriptor` and `abiTypeString` live in the external serializer
module, so the descriptor type and its canonical rendering are taken as
parameters. -/

/-- A runtime variant value (`class Variant`): the wrapped payload and the
index into the concrete subclass's declared alternative list. -/
structure VariantVal (V : Type v) where
  value : V
  variantIdx : Nat
  deriving DecidableEq, Repr

/-- JS `Array.prototype.findIndex`: index of the first match, `-1` when
there is none. -/
def findIndexJS {α : Type u} (p : α → Bool) (l : List α) : Int :=
  match l.findIdx? p with
  | some i => (i : Int)
  | none => -1

/-- The `Variant` constructor: render each declared alternative with
`abiTypeString`, find the tag's position, and throw
`Unknown variant ${tag}` when the index is out of declared bounds. -/
def variantMake {D : Type u} {V : Type v} (abiVariant : List D)
    (abiTypeString : D → Str) (tag : Str) (payload : V) :
    Except Str (VariantVal V) :=
  let variantIdx :=
    findIndexJS (fun t => t = tag) (abiVariant.map abiTypeString)
  if 0 > variantIdx ∨ (abiVariant.length : Int) ≤ variantIdx then
    Except.error (str "Unknown variant " ++ tag)
  else
    Except.ok ⟨payload, variantIdx.toNat⟩

/-- The `variantName` getter: the stored index rendered back through the
declared alternative list. -/
def variantName {D : Type u} {V : Type v} (abiVariant : List D)
    (abiTypeString : D → Str) (v : VariantVal V) : Str :=
  match abiVariant[v.variantIdx]? with
  | some d => abiTypeString d
  | none => []

/-- Source `toJSON`: the two-element pair `[variantName, value]`. -/
def variantToJSON {D : Type u} {V : Type v} (abiVariant : List D)
    (abiTypeString : D → Str) (v : VariantVal V) : Str × V :=
  (variantName abiVariant abiTypeString v, v.value)

/-- Stripping a present suffix and re-appending it restores the string. -/
theorem dropRight_append_of_endsWith (s suffix : Str)
    (h : strEndsWith s suffix = true) :
    dropRight s suffix.length ++ suffix = s := by
  unfold strEndsWith at h
  rw [List.isSuffixOf_iff_suffix] at h
  obtain ⟨t, rfl⟩ := h
  unfold dropRight
  rw [List.length_append, Nat.add_sub_cancel, List.take_left]

/-- Re-applying a stripped suffix restores the original string. -/
theorem applyIf_stripIf (s suffix : Str) :
    applyIf (stripIf s suffix).1 suffix (stripIf s suffix).2 = s := by
  unfold stripIf applyIf
  by_cases h : strEndsWith s suffix = true
  · simp only [h, if_pos]
    exact dropRight_append_of_endsWith s suffix h
  · simp only [h, Bool.false_eq_true, if_false]

/-- Parse-then-render is the identity on every full type-name string. -/
theorem typeName_make (s : Str) (id : Nat) :
    (ResolvedType.make s id).typeName = s := by
  simp only [ResolvedType.make, ResolvedType.typeName]
  rw [applyIf_stripIf, applyIf_stripIf, applyIf_stripIf]

/-! ### Cache-growth machinery for the termination proof -/

theorem cacheLe_refl (c : List (Str × Nat)) : cacheLe c c := fun _ _ h => h

theorem cacheLe_trans {a b c : List (Str × Nat)}
    (h1 : cacheLe a b) (h2 : cacheLe b c) : cacheLe a c :=
  fun k v h => h2 k v (h1 k v h)

theorem lookupCache_cons (k : Str) (v : Nat) (c : List (Str × Nat))
    (key : Str) :
    lookupCache ((k, v) :: c) key
      = if k = key then some v else lookupCache c key := rfl

/-- Inserting a key that was absent preserves all existing bindings. -/
theorem cacheLe_cons {c : List (Str × Nat)} {k : Str} {v : Nat}
    (h : lookupCache c k = none) : cacheLe c ((k, v) :: c) := by
  intro key w hw
  rw [lookupCache_cons]
  split
  · next heq =>
    subst heq
    rw [h] at hw
    cases hw
  · exact hw

theorem missing_filter_sublist (abi : ABI) {c c' : List (Str × Nat)}
    (h : cacheLe c c') :
    ((schemaNames abi).filter (fun n => (lookupCache c' n).isNone)).Sublist
      ((schemaNames abi).filter (fun n => (lookupCache c n).isNone)) := by
  apply List.monotone_filter_right
  intro n hn
  cases hcn : lookupCache c n with
  | none => simp
  | some v =>
    rw [h n v hcn] at hn
    simp at hn

theorem missing_le_of_cacheLe (abi : ABI) {c c' : List (Str × Nat)}
    (h : cacheLe c c') : missing abi c' ≤ missing abi c :=
  (missing_filter_sublist abi h).length_le

/-- Caching a schema name that was not yet cached strictly shrinks the
measure. -/
theorem missing_lt_of_insert (abi : ABI) {c : List (Str × Nat)}
    {name : Str} {v : Nat} (hmem : name ∈ schemaNames abi)
    (hnone : lookupCache c name = none) :
    missing abi ((name, v) :: c) < missing abi c := by
  have hsub := missing_filter_sublist abi (cacheLe_cons (v := v) hnone)
  refine Nat.lt_of_le_of_ne hsub.length_le (fun heq => ?_)
  have heqlist := hsub.eq_of_length heq
  have hmem' : name ∈ (schemaNames abi).filter
      (fun n => (lookupCache c n).isNone) := by
    rw [List.mem_filter]
    exact ⟨hmem, by rw [hnone]; rfl⟩
  rw [← heqlist, List.mem_filter, lookupCache_cons, if_pos rfl] at hmem'
  simp at hmem'

/-! ### Where the resolver's recursive calls can lead -/

theorem alias_type_mem {abi : ABI} {al : TypeDef} (h : al ∈ abi.types) :
    al.type ∈ schemaNames abi := by
  unfold schemaNames
  exact List.mem_append_left _
    (List.mem_append_left _ (List.mem_map_of_mem _ h))

theorem struct_field_type_mem {abi : ABI} {s : Struct} {f : Field}
    (hs : s ∈ abi.structs) (hf : f ∈ s.fields) :
    f.type ∈ schemaNames abi := by
  unfold schemaNames
  refine List.mem_append_left _ (List.mem_append_right _ ?_)
  rw [List.mem_flatMap]
  exact ⟨s, hs, List.mem_map_of_mem _ hf⟩

theorem variant_alt_mem {abi : ABI} {v : VariantDef} {t : Str}
    (hv : v ∈ abi.variants) (ht : t ∈ v.types) :
    t ∈ schemaNames abi := by
  unfold schemaNames
  refine List.mem_append_right _ ?_
  rw [List.mem_flatMap]
  exact ⟨v, hv, ht⟩

/-- All fields produced by the flattening loop come from the schema's
struct declarations. -/
theorem resolveStructGo_fields_mem {abi : ABI} :
    ∀ fuel (top : Struct) (rv : List Field) (seen : List Str)
      (out : List Field), top ∈ abi.structs →
      (∀ f ∈ rv, ∃ s ∈ abi.structs, f ∈ s.fields) →
      resolveStructGo abi fuel top rv seen = some out →
      ∀ f ∈ out, ∃ s ∈ abi.structs, f ∈ s.fields := by
  intro fuel
  induction fuel with
  | zero =>
    intro top rv seen out _ _ h
    simp [resolveStructGo] at h
  | succ fuel ih =>
    intro top rv seen out htop hrv h
    rw [resolveStructGo] at h
    split at h
    · cases h
    · split at h
      · next hnone =>
        cases h
        intro f hf
        rcases List.mem_append.mp hf with hl | hr
        · exact ⟨top, htop, hl⟩
        · exact hrv f hr
      · next next hnext =>
        refine ih next _ _ out (List.mem_of_find?_eq_some hnext) ?_ h
        intro f hf
        rcases List.mem_append.mp hf with hl | hr
        · exact ⟨top, htop, hl⟩
        · exact hrv f hr

theorem resolveStruct_fields_mem {abi : ABI} {name : Str} {fs : List Field}
    (h : abi.resolveStruct name = some fs) :
    ∀ f ∈ fs, ∃ s ∈ abi.structs, f ∈ s.fields := by
  unfold ABI.resolveStruct at h
  split at h
  · cases h
  · next top htop =>
    exact resolveStructGo_fields_mem _ top [] [] fs
      (List.mem_of_find?_eq_some htop) (by intro f hf; cases hf) h

/-- A transitive-reflexive relation preserved by each step of a
state-threading map is preserved by the whole map. -/
theorem mapWithState_rel {σ : Type u1} {α : Type u2} {β : Type u3}
    (R : σ → σ → Prop)
    (htrans : ∀ {a b c : σ}, R a b → R b c → R a c)
    (hrefl : ∀ s, R s s)
    (f : α → σ → Option (β × σ))
    (hf : ∀ x s b s', f x s = some (b, s') → R s s') :
    ∀ (xs : List α) (s : σ) (bs : List β) (s' : σ),
      mapWithState f xs s = some (bs, s') → R s s' := by
  intro xs
  induction xs with
  | nil =>
    intro s bs s' h
    rw [mapWithState] at h
    cases h
    exact hrefl _
  | cons x rest ih =>
    intro s bs s' h
    rw [mapWithState] at h
    split at h
    · cases h
    · next b s1 hx =>
      split at h
      · cases h
      · next bs2 s2 hrest =>
        cases h
        exact htrans (hf x s b s1 hx) (ih s1 _ _ hrest)

/-- A resolve step only ever adds cache entries. -/
theorem resolveGo_cacheLe {abi : ABI} :
    ∀ fuel name st r, resolveGo abi fuel name st = some r →
      cacheLe st.cache r.2.cache := by
  intro fuel
  induction fuel with
  | zero =>
    intro name st r h
    rw [resolveGo] at h
    cases h
  | succ fuel ih =>
    intro name st r h
    simp only [resolveGo] at h
    split at h
    · cases h
      exact cacheLe_refl _
    · next hnone =>
      rw [typeName_make] at h
      have hstep : cacheLe st.cache
          ((name, st.arena.length) :: st.cache) := cacheLe_cons hnone
      split at h
      · -- alias branch
        split at h
        · cases h
        · next ridx st2 hchild =>
          cases h
          exact cacheLe_trans hstep (ih _ _ _ hchild)
      · split at h
        · -- struct branch
          split at h
          · cases h
          · next pairs st2 hmap =>
            cases h
            refine cacheLe_trans hstep
              (mapWithState_rel (fun a b => cacheLe a.cache b.cache)
                cacheLe_trans (fun s => cacheLe_refl _) _ ?_ _ _ _ _ hmap)
            intro x s b s' hx
            split at hx
            · cases hx
            · next i st'' hx' =>
              cases hx
              exact ih _ _ _ hx'
        · split at h
          · -- variant branch
            split at h
            · cases h
            · next idxs st2 hmap =>
              cases h
              refine cacheLe_trans hstep
                (mapWithState_rel (fun a b => cacheLe a.cache b.cache)
                  cacheLe_trans (fun s => cacheLe_refl _) _ ?_ _ _ _ _ hmap)
              intro x s b s' hx
              exact ih _ _ _ hx
          · -- builtin or unknown
            cases h
            exact hstep

/-- A state-threading map succeeds when each step succeeds under a guard
that the steps preserve. -/
theorem mapWithState_total {σ : Type u1} {α : Type u2} {β : Type u3}
    (Q : σ → Prop)
    (f : α → σ → Option (β × σ))
    (hQ : ∀ x s b s', f x s = some (b, s') → Q s → Q s') :
    ∀ (xs : List α), (∀ x ∈ xs, ∀ s, Q s → ∃ r, f x s = some r) →
      ∀ s, Q s → ∃ r, mapWithState f xs s = some r := by
  intro xs
  induction xs with
  | nil =>
    intro _ s _
    exact ⟨([], s), rfl⟩
  | cons x rest ih =>
    intro hf s hQs
    obtain ⟨⟨b, s1⟩, hx⟩ := hf x (List.mem_cons_self x rest) s hQs
    have hQ1 := hQ x s b s1 hx hQs
    obtain ⟨⟨bs, s2⟩, hrest⟩ :=
      ih (fun y hy => hf y (List.mem_cons_of_mem x hy)) s1 hQ1
    exact ⟨(b :: bs, s2), by simp only [mapWithState, hx, hrest]⟩

/-- The resolve step always succeeds given fuel exceeding the number of
uncached schema names: the cache-before-recurse discipline strictly
shrinks that measure before every recursive call. -/
theorem resolveGo_total {abi : ABI} :
    ∀ fuel name st,
      missing abi st.cache
        + (if name ∈ schemaNames abi then 1 else 2) ≤ fuel →
      ∃ r, resolveGo abi fuel name st = some r := by
  intro fuel
  induction fuel with
  | zero =>
    intro name st hb
    exfalso
    split at hb <;> omega
  | succ fuel ih =>
    intro name st hb
    cases hlk : lookupCache st.cache name with
    | some idx =>
      exact ⟨(idx, st), by rw [resolveGo, hlk]⟩
    | none =>
      have hchildbound : missing abi
          ((name, st.arena.length) :: st.cache) + 1 ≤ fuel := by
        by_cases hmem : name ∈ schemaNames abi
        · have hlt := missing_lt_of_insert abi (v := st.arena.length)
            hmem hlk
          rw [if_pos hmem] at hb
          omega
        · have hle := missing_le_of_cacheLe abi
            (cacheLe_cons (v := st.arena.length) hlk)
          rw [if_neg hmem] at hb
          omega
      have hchild : ∀ cn, cn ∈ schemaNames abi → ∀ s : RState,
          missing abi s.cache + 1 ≤ fuel →
          ∃ r, resolveGo abi fuel cn s = some r := by
        intro cn hcn s hs
        refine ih cn s ?_
        rw [if_pos hcn]
        exact hs
      simp only [resolveGo, hlk, typeName_make]
      cases hal : abi.types.find? (fun td =>
          td.new_type_name = (ResolvedType.make name (st.nextId + 1)).name)
          with
      | some al =>
        obtain ⟨⟨ridx, st2⟩, hc⟩ := hchild al.type
          (alias_type_mem (List.mem_of_find?_eq_some hal))
          ⟨st.arena ++ [ResolvedType.make name (st.nextId + 1)],
            (name, st.arena.length) :: st.cache, st.nextId + 1⟩
          hchildbound
        simp only [hal, hc]
        exact ⟨_, rfl⟩
      | none =>
        simp only [hal]
        cases hstruct : abi.resolveStruct
            (ResolvedType.make name (st.nextId + 1)).name with
        | some fs =>
          simp only [hstruct]
          obtain ⟨⟨pairs, st2⟩, hmap⟩ :=
            mapWithState_total
              (fun s : RState => missing abi s.cache + 1 ≤ fuel)
              (fun (f : Field) st' =>
                match resolveGo abi fuel f.type st' with
                | none => none
                | some (i, st'') => some ((f.name, i), st''))
              (by
                intro x s b s' hx hQs
                have hx2 : (match resolveGo abi fuel x.type s with
                    | none => none
                    | some (i, st'') => some ((x.name, i), st''))
                      = some (b, s') := hx
                split at hx2
                · cases hx2
                · next i st'' hx' =>
                  cases hx2
                  have hle : missing abi s'.cache ≤ missing abi s.cache :=
                    missing_le_of_cacheLe abi
                      (resolveGo_cacheLe _ _ _ _ hx')
                  omega)
              fs
              (by
                intro x hx s hQs
                obtain ⟨s', hs', hfield⟩ :=
                  resolveStruct_fields_mem hstruct x hx
                obtain ⟨⟨i, st''⟩, hr⟩ := hchild x.type
                  (struct_field_type_mem hs' hfield) s hQs
                refine ⟨((x.name, i), st''), ?_⟩
                show (match resolveGo abi fuel x.type s with
                  | none => none
                  | some (i, st'') => some ((x.name, i), st''))
                    = some ((x.name, i), st'')
                rw [hr])
              ⟨st.arena ++ [ResolvedType.make name (st.nextId + 1)],
                (name, st.arena.length) :: st.cache, st.nextId + 1⟩
              hchildbound
          simp only [hmap]
          exact ⟨_, rfl⟩
        | none =>
          simp only [hstruct]
          cases hvar : abi.getVariant
              (ResolvedType.make name (st.nextId + 1)).name with
          | some v =>
            simp only [hvar]
            obtain ⟨⟨idxs, st2⟩, hmap⟩ :=
              mapWithState_total
                (fun s : RState => missing abi s.cache + 1 ≤ fuel)
                (fun (n : Str) st' => resolveGo abi fuel n st')
                (by
                  intro x s b s' hx hQs
                  have hle : missing abi s'.cache ≤ missing abi s.cache :=
                    missing_le_of_cacheLe abi
                      (resolveGo_cacheLe _ _ _ (b, s') hx)
                  omega)
                v.types
                (by
                  intro x hx s hQs
                  exact hchild x
                    (variant_alt_mem (List.mem_of_find?_eq_some hvar) hx)
                    s hQs)
                ⟨st.arena ++ [ResolvedType.make name (st.nextId + 1)],
                  (name, st.arena.length) :: st.cache, st.nextId + 1⟩
                hchildbound
            simp only [hmap]
            exact ⟨_, rfl⟩
          | none =>
            simp only [hvar]
            exact ⟨_, rfl⟩

theorem make_fields_none (s : Str) (id : Nat) :
    (ResolvedType.make s id).fields = none := rfl

theorem make_variant_none (s : Str) (id : Nat) :
    (ResolvedType.make s id).variant = none := rfl

theorem make_ref_none (s : Str) (id : Nat) :
    (ResolvedType.make s id).ref = none := rfl

theorem arenaOk_append_make {st : RState} (h : arenaOk st) (s : Str)
    (id : Nat) (c : List (Str × Nat)) (n : Nat) :
    arenaOk ⟨st.arena ++ [ResolvedType.make s id], c, n⟩ := by
  intro t ht
  rcases List.mem_append.mp ht with hl | hr
  · exact h t hl
  · rw [List.mem_singleton] at hr
    subst hr
    simp [popCount, make_fields_none, make_variant_none, make_ref_none]

theorem arenaOk_set {s : RState} {idx : Nat} {t' : ResolvedType}
    (h : arenaOk s) (ht' : popCount t' ≤ 1) (c : List (Str × Nat))
    (n : Nat) : arenaOk ⟨s.arena.set idx t', c, n⟩ := by
  intro t ht
  rcases List.mem_or_eq_of_mem_set ht with hl | rfl
  · exact h t hl
  · exact ht'

/-- Every node a resolve step adds to the arena has at most one of
`fields`, `variant`, `ref` populated. -/
theorem resolveGo_arenaOk {abi : ABI} :
    ∀ fuel name st r, resolveGo abi fuel name st = some r →
      arenaOk st → arenaOk r.2 := by
  intro fuel
  induction fuel with
  | zero =>
    intro name st r h
    rw [resolveGo] at h
    cases h
  | succ fuel ih =>
    intro name st r h hok
    simp only [resolveGo] at h
    split at h
    · cases h
      exact hok
    · next hnone =>
      rw [typeName_make] at h
      have hok1 := arenaOk_append_make hok name (st.nextId + 1)
        ((name, st.arena.length) :: st.cache) (st.nextId + 1)
      split at h
      · split at h
        · cases h
        · next ridx st2 hchild =>
          cases h
          refine arenaOk_set (ih _ _ _ hchild hok1) ?_ _ _
          simp [popCount, make_fields_none, make_variant_none]
      · split at h
        · split at h
          · cases h
          · next pairs st2 hmap =>
            cases h
            refine arenaOk_set ?_ ?_ _ _
            · refine mapWithState_rel (fun a b => arenaOk a → arenaOk b)
                (fun hab hbc ha => hbc (hab ha)) (fun _ ha => ha) _ ?_
                _ _ _ _ hmap hok1
              intro x s b s' hx
              have hx2 : (match resolveGo abi fuel x.type s with
                  | none => none
                  | some (i, st'') => some ((x.name, i), st''))
                    = some (b, s') := hx
              split at hx2
              · cases hx2
              · next i st'' hx' =>
                cases hx2
                exact ih _ _ _ hx'
            · simp [popCount, make_variant_none, make_ref_none]
        · split at h
          · split at h
            · cases h
            · next idxs st2 hmap =>
              cases h
              refine arenaOk_set ?_ ?_ _ _
              · refine mapWithState_rel (fun a b => arenaOk a → arenaOk b)
                  (fun hab hbc ha => hbc (hab ha)) (fun _ ha => ha) _ ?_
                  _ _ _ _ hmap hok1
                intro x s b s' hx
                exact ih _ _ _ hx
              · simp [popCount, make_fields_none, make_ref_none]
          · cases h
            exact hok1

/-- A successful resolve leaves the requested full name in the cache,
bound to the returned node. -/
theorem resolveGo_lookup_self {abi : ABI} :
    ∀ fuel name st r, resolveGo abi fuel name st = some r →
      lookupCache r.2.cache name = some r.1 := by
  intro fuel name st r h
  cases fuel with
  | zero =>
    rw [resolveGo] at h
    cases h
  | succ fuel =>
    simp only [resolveGo] at h
    split at h
    · next idx hidx =>
      cases h
      exact hidx
    · next hnone =>
      rw [typeName_make] at h
      have hself : lookupCache
          ((name, st.arena.length) :: st.cache) name
            = some st.arena.length := by
        rw [lookupCache_cons, if_pos rfl]
      split at h
      · split at h
        · cases h
        · next ridx st2 hchild =>
          cases h
          exact resolveGo_cacheLe _ _ _ _ hchild _ _ hself
      · split at h
        · split at h
          · cases h
          · next pairs st2 hmap =>
            cases h
            refine mapWithState_rel (fun a b => cacheLe a.cache b.cache)
              cacheLe_trans (fun s => cacheLe_refl _) _ ?_ _ _ _ _ hmap
              _ _ hself
            intro x s b s' hx
            have hx2 : (match resolveGo abi fuel x.type s with
                | none => none
                | some (i, st'') => some ((x.name, i), st''))
                  = some (b, s') := hx
            split at hx2
            · cases hx2
            · next i st'' hx' =>
              cases hx2
              exact resolveGo_cacheLe _ _ _ _ hx'
        · split at h
          · split at h
            · cases h
            · next idxs st2 hmap =>
              cases h
              refine mapWithState_rel (fun a b => cacheLe a.cache b.cache)
                cacheLe_trans (fun s => cacheLe_refl _) _ ?_ _ _ _ _ hmap
                _ _ hself
              intro x s b s' hx
              exact resolveGo_cacheLe _ _ _ _ hx
          · cases h
            exact hself

/-- The accumulator loop computes exactly the reversed-chain
concatenation, suffixed by whatever was already accumulated. -/
theorem resolveStructGo_eq_specChain (abi : ABI) :
    ∀ fuel (top : Struct) (rv : List Field) (seen : List Str),
      resolveStructGo abi fuel top rv seen
        = (specStructChain abi fuel top seen).map
            (fun ch => ch.reverse.flatMap (fun s => s.fields) ++ rv) := by
  intro fuel
  induction fuel with
  | zero => intro top rv seen; rfl
  | succ fuel ih =>
    intro top rv seen
    simp only [resolveStructGo, specStructChain]
    by_cases hb : top.base ∈ top.name :: seen
    · rw [if_pos hb, if_pos hb]
      rfl
    · rw [if_neg hb, if_neg hb]
      cases hn : abi.getStruct top.base with
      | none =>
        simp [List.flatMap_cons]
      | some next =>
        simp only [ih next (top.fields ++ rv) (top.name :: seen)]
        cases hc : specStructChain abi fuel next (top.name :: seen) with
        | none => rfl
        | some ch =>
          simp [List.reverse_cons, List.flatMap_append, List.flatMap_cons,
            List.flatMap_nil, List.append_assoc]

/-- When the tag occurs at index `i`, construction succeeds with that
index. -/
theorem variantMake_of_findIdx {D : Type u} {V : Type v}
    {abiVariant : List D} {render : D → Str} {tag : Str} {i : Nat}
    (payload : V)
    (h : (abiVariant.map render).findIdx? (fun t => t = tag) = some i) :
    variantMake abiVariant render tag payload = Except.ok ⟨payload, i⟩ := by
  have hi : i < abiVariant.length := by
    have := (List.findIdx?_eq_some_iff_getElem.mp h).1
    rwa [List.length_map] at this
  unfold variantMake findIndexJS
  rw [h]
  rw [if_neg]
  · simp
  · push_neg
    constructor <;> omega

/-- When no alternative renders to the tag, construction fails. -/
theorem variantMake_of_findIdx_none {D : Type u} {V : Type v}
    {abiVariant : List D} {render : D → Str} {tag : Str} (payload : V)
    (h : (abiVariant.map render).findIdx? (fun t => t = tag) = none) :
    variantMake abiVariant render tag payload
      = Except.error (str "Unknown variant " ++ tag) := by
  simp only [variantMake, findIndexJS, h]
  rw [if_pos (Or.inl (by norm_num))]

/-- The name rendered back from a found index is the tag itself. -/
theorem variantName_of_findIdx {D : Type u} {V : Type v}
    {abiVariant : List D} {render : D → Str} {tag : Str} {i : Nat}
    (x : V)
    (h : (abiVariant.map render).findIdx? (fun t => t = tag) = some i) :
    variantName abiVariant render (⟨x, i⟩ : VariantVal V) = tag := by
  obtain ⟨hlen, hp, _⟩ := List.findIdx?_eq_some_iff_getElem.mp h
  have hi : i < abiVariant.length := by rwa [List.length_map] at hlen
  have hget : (abiVariant.map render)[i] = render abiVariant[i] := by
    simp
  rw [hget] at hp
  have htag : render abiVariant[i] = tag := of_decide_eq_true hp
  unfold variantName
  rw [List.getElem?_eq_getElem hi]
  exact htag

/-! ### Adequacy of the fuel embedding

A successful run never hit the fuel cutoff (failure propagates), so its
result is stable under extra fuel; together with the totality theorem
this identifies the fueled functions with the source's unbounded
recursion. -/

/-- Filtering with a stronger predicate that excludes a present element
gives a strictly shorter list. -/
theorem filter_length_lt {α : Type u} {l : List α} {p q : α → Bool}
    (himp : ∀ a, q a = true → p a = true) {a : α} (ha : a ∈ l)
    (hpa : p a = true) (hqa : q a = false) :
    (l.filter q).length < (l.filter p).length := by
  have hsub := List.monotone_filter_right l himp
  refine Nat.lt_of_le_of_ne hsub.length_le (fun heq => ?_)
  have heqlist := hsub.eq_of_length heq
  have hmem : a ∈ l.filter p := List.mem_filter.mpr ⟨ha, hpa⟩
  rw [← heqlist, List.mem_filter] at hmem
  rw [hqa] at hmem
  cases hmem.2

/-- A pointwise-stronger step function keeps every success of a
state-threading map. -/
theorem mapWithState_mono_f {σ : Type u1} {α : Type u2} {β : Type u3}
    {f g : α → σ → Option (β × σ)}
    (hfg : ∀ x s r, f x s = some r → g x s = some r) :
    ∀ (xs : List α) (s : σ) (r : List β × σ),
      mapWithState f xs s = some r → mapWithState g xs s = some r := by
  intro xs
  induction xs with
  | nil =>
    intro s r h
    exact h
  | cons x rest ih =>
    intro s r h
    rw [mapWithState] at h ⊢
    split at h
    · cases h
    · next b s1 hx =>
      rw [hfg x s (b, s1) hx]
      split at h
      · cases h
      · next bs2 s2 hrest =>
        show (match mapWithState g rest s1 with
          | none => none
          | some (bs, s'') => some (b :: bs, s'')) = some r
        rw [ih s1 (bs2, s2) hrest]
        exact h

/-- A successful resolve is preserved when the fuel is increased. -/
theorem resolveGo_fuel_succ {abi : ABI} :
    ∀ fuel name st r, resolveGo abi fuel name st = some r →
      resolveGo abi (fuel + 1) name st = some r := by
  intro fuel
  induction fuel with
  | zero =>
    intro name st r h
    rw [resolveGo] at h
    cases h
  | succ fuel ih =>
    intro name st r h
    rw [resolveGo.eq_2 abi name st fuel] at h
    rw [resolveGo.eq_2 abi name st (fuel + 1)]
    simp only [] at h ⊢
    split at h
    · exact h
    · rw [typeName_make] at h ⊢
      split at h
      · next al hal =>
        split at h
        · cases h
        · next ridx st2 hc =>
          rw [ih _ _ _ hc]
          exact h
      · split at h
        · next fs hstruct =>
          split at h
          · cases h
          · next pairs st2 hmap =>
            have hmap' := mapWithState_mono_f (g := fun (f : Field) st' =>
                match resolveGo abi (fuel + 1) f.type st' with
                | none => none
                | some (i, st'') => some ((f.name, i), st''))
              (by
                intro x s r2 hx
                have hx2 : (match resolveGo abi fuel x.type s with
                    | none => none
                    | some (i, st'') => some ((x.name, i), st''))
                      = some r2 := hx
                split at hx2
                · cases hx2
                · next i st'' hx' =>
                  show (match resolveGo abi (fuel + 1) x.type s with
                    | none => none
                    | some (i, st'') => some ((x.name, i), st'')) = some r2
                  rw [ih _ _ _ hx']
                  exact hx2)
              _ _ _ hmap
            rw [hmap']
            exact h
        · split at h
          · next v hvar =>
            split at h
            · cases h
            · next idxs st2 hmap =>
              have hmap' := mapWithState_mono_f
                (g := fun (n : Str) st' => resolveGo abi (fuel + 1) n st')
                (by
                  intro x s r2 hx
                  exact ih _ _ _ hx)
                _ _ _ hmap
              rw [hmap']
              exact h
          · exact h

/-- Below the cutoff the struct-flattening loop's value is already
stable: with every visited struct fresh and the fuel exceeding the number
of unvisited structs, one more unit of fuel changes nothing. -/
theorem resolveStructGo_fuel_succ {abi : ABI} :
    ∀ fuel (top : Struct) (rv : List Field) (seen : List Str),
      top ∈ abi.structs → top.name ∉ seen →
      (abi.structs.filter (fun s => decide (s.name ∉ seen))).length + 1
        ≤ fuel →
      resolveStructGo abi fuel top rv seen
        = resolveStructGo abi (fuel + 1) top rv seen := by
  intro fuel
  induction fuel with
  | zero =>
    intro top rv seen _ _ hb
    omega
  | succ fuel ih =>
    intro top rv seen htop hfresh hb
    rw [resolveStructGo]
    conv_rhs => rw [resolveStructGo]
    by_cases hbase : top.base ∈ top.name :: seen
    · rw [if_pos hbase, if_pos hbase]
    · rw [if_neg hbase, if_neg hbase]
      cases hn : abi.getStruct top.base with
      | none => rfl
      | some next =>
        have hn2 : abi.structs.find? (fun s => s.name = top.base)
            = some next := hn
        have hnextmem := List.mem_of_find?_eq_some hn2
        have hname : next.name = top.base := by
          have hp := List.find?_some hn2
          simp only [decide_eq_true_eq] at hp
          exact hp
        refine ih next _ _ hnextmem (by rw [hname]; exact hbase) ?_
        have hlt : (abi.structs.filter
              (fun s => decide (s.name ∉ top.name :: seen))).length
            < (abi.structs.filter
              (fun s => decide (s.name ∉ seen))).length := by
          refine filter_length_lt ?_ htop ?_ ?_
          · intro a ha
            have := of_decide_eq_true ha
            exact decide_eq_true (fun hmem => this (List.mem_cons_of_mem _ hmem))
          · exact decide_eq_true hfresh
          · exact decide_eq_false (fun hnot =>
              hnot (List.mem_cons_self _ _))
        omega

/-! ## The claims -/

/-- C1: for every schema (including self-referential and
mutually-recursive struct/variant/alias graphs) and every type name,
`resolveType` terminates: the resolver registers each new node in the
pass-local cache before resolving its children, so the count of uncached
schema names strictly decreases before every recursive call and the fuel
bound chosen by `resolveType` is never exhausted. -/
theorem claim_C1_resolveType_terminates (abi : ABI) (name : Str) :
    ∃ r, abi.resolveType name = some r := by
  unfold ABI.resolveType
  refine resolveGo_total _ _ _ ?_
  have hm : missing abi (RState.mk [] [] 0).cache
      ≤ (schemaNames abi).length := List.length_filter_le _ _
  split <;> omega

/-- C2: `resolveStruct` returns the concatenation of each struct's own
fields in declared order, base-most struct first (it agrees with the
spec-side reversed-chain description on every schema and name); on the
concrete `D extends B` example it returns exactly `[b0, b1, d0]`. -/
theorem claim_C2_resolveStruct_flattening :
    (∀ (abi : ABI) (name : Str),
        abi.resolveStruct name = specFlattenedFields abi name) ∧
    abiBD.resolveStruct (str "D")
      = some [⟨str "b0", str "uint8"⟩, ⟨str "b1", str "uint16"⟩,
              ⟨str "d0", str "uint32"⟩] := by
  constructor
  · intro abi name
    unfold ABI.resolveStruct specFlattenedFields
    cases h : abi.getStruct name with
    | none => rfl
    | some top =>
      show resolveStructGo abi (abi.structs.length + 1) top [] []
        = Option.map (fun ch => ch.reverse.flatMap fun s => s.fields)
            (specStructChain abi (abi.structs.length + 1) top [])
      rw [resolveStructGo_eq_specChain]
      cases specStructChain abi (abi.structs.length + 1) top [] with
      | none => rfl
      | some ch => simp
  · decide

/-- C3: a struct whose base chain revisits an already-seen struct name
resolves to absent rather than erroring or looping; a struct that does not
exist is absent immediately; and `resolveType` on a base-cycle struct
yields a leaf node with no fields, variant or ref populated. -/
theorem claim_C3_circular_base_absent :
    (∀ (abi : ABI) (name : Str), abi.getStruct name = none →
        abi.resolveStruct name = none) ∧
    abiSelfLoop.resolveStruct (str "A") = none ∧
    abiMutLoop.resolveStruct (str "A") = none ∧
    abiMutLoop.resolveStruct (str "B") = none ∧
    abiSelfLoop.resolveType (str "A")
      = some (0, ⟨[⟨str "A", 1, false, false, false, none, none, none⟩],
          [(str "A", 0)], 1⟩) := by
  refine ⟨?_, by decide, by decide, by decide, by decide⟩
  intro abi name h
  unfold ABI.resolveStruct
  rw [h]

/-- Witness for C3's only hypothesis: a missing struct is absent. -/
theorem claim_C3_witness :
    (⟨[], [], []⟩ : ABI).resolveStruct (str "nope") = none :=
  claim_C3_circular_base_absent.1 ⟨[], [], []⟩ (str "nope") (by decide)

/-- C4: every node produced by a resolution pass has at most one of
fields/variant/ref populated, and a name matching no alias, struct or
variant yields the freshly allocated leaf node unchanged — no error. -/
theorem claim_C4_at_most_one_slot :
    (∀ (abi : ABI) (name : Str) (r : Nat × RState),
        abi.resolveType name = some r → ∀ t ∈ r.2.arena, popCount t ≤ 1) ∧
    (∀ (abi : ABI) (name : Str) (st : RState) (fuel : Nat),
        lookupCache st.cache name = none →
        abi.types.find? (fun td => td.new_type_name
          = (ResolvedType.make name (st.nextId + 1)).name) = none →
        abi.resolveStruct (ResolvedType.make name (st.nextId + 1)).name
          = none →
        abi.getVariant (ResolvedType.make name (st.nextId + 1)).name
          = none →
        resolveGo abi (fuel + 1) name st = some (st.arena.length,
          ⟨st.arena ++ [ResolvedType.make name (st.nextId + 1)],
           (name, st.arena.length) :: st.cache, st.nextId + 1⟩)) := by
  constructor
  · intro abi name r h
    refine resolveGo_arenaOk _ _ _ _ h ?_
    intro t ht
    exact absurd ht (List.not_mem_nil t)
  · intro abi name st fuel h1 h2 h3 h4
    simp only [resolveGo, h1, typeName_make, h2, h3, h4]

/-- Witness for C4: the pass over the self-loop schema yields only nodes
with at most one populated slot. -/
theorem claim_C4_witness :
    popCount ⟨str "A", 1, false, false, false, none, none, none⟩ ≤ 1 :=
  claim_C4_at_most_one_slot.1 abiSelfLoop (str "A")
    (0, ⟨[⟨str "A", 1, false, false, false, none, none, none⟩],
      [(str "A", 0)], 1⟩) (by decide) _ (List.mem_singleton.mpr rfl)

/-- C5: suffixes are stripped in the fixed order `$`, `?`, `[]`:
`foo[]?$` parses to base `foo` with all three flags and re-renders
exactly; `foo?[]` keeps the `?` inside the base name, confirming the
order is fixed. -/
theorem claim_C5_suffix_strip_order :
    (ResolvedType.make (str "foo[]?$") 7).name = str "foo" ∧
    (ResolvedType.make (str "foo[]?$") 7).isArray = true ∧
    (ResolvedType.make (str "foo[]?$") 7).isOptional = true ∧
    (ResolvedType.make (str "foo[]?$") 7).isExtension = true ∧
    (ResolvedType.make (str "foo[]?$") 7).typeName = str "foo[]?$" ∧
    (ResolvedType.make (str "foo?[]") 7).name = str "foo?" ∧
    (ResolvedType.make (str "foo?[]") 7).isArray = true ∧
    (ResolvedType.make (str "foo?[]") 7).isOptional = false := by
  decide

/-- C6: within one pass each distinct full suffixed name gets its own
cache entry bound to its own node; concretely `foo` and `foo[]` resolve
to two nodes with different ids and different typeNames. -/
theorem claim_C6_per_suffix_nodes :
    (∀ (abi : ABI) (fuel : Nat) (name : Str) (st : RState)
        (r : Nat × RState), resolveGo abi fuel name st = some r →
        lookupCache r.2.cache name = some r.1) ∧
    (∃ st : RState, abiFooPair.resolveType (str "s") = some (0, st) ∧
      lookupCache st.cache (str "foo") = some 1 ∧
      lookupCache st.cache (str "foo[]") = some 2 ∧
      ∃ t1 t2, st.arena[1]? = some t1 ∧ st.arena[2]? = some t2 ∧
        t1.id = 2 ∧ t2.id = 3 ∧ t1.id ≠ t2.id ∧
        t1.typeName = str "foo" ∧ t2.typeName = str "foo[]" ∧
        t1.typeName ≠ t2.typeName) := by
  constructor
  · intro abi fuel name st r h
    exact resolveGo_lookup_self fuel name st r h
  · refine ⟨⟨[⟨str "s", 1, false, false, false,
        some [(str "a", 1), (str "b", 2)], none, none⟩,
      ⟨str "foo", 2, false, false, false, none, none, none⟩,
      ⟨str "foo", 3, true, false, false, none, none, none⟩],
      [(str "foo[]", 2), (str "foo", 1), (str "s", 0)], 3⟩,
      by decide, by decide, by decide,
      ⟨str "foo", 2, false, false, false, none, none, none⟩,
      ⟨str "foo", 3, true, false, false, none, none, none⟩,
      by decide, by decide, by decide, by decide, by decide,
      by decide, by decide, by decide⟩

/-- Witness for C6's hypothesis: the self-loop pass leaves `A` cached and
bound to the returned node. -/
theorem claim_C6_witness :
    lookupCache [(str "A", 0)] (str "A") = some 0 :=
  claim_C6_per_suffix_nodes.1 abiSelfLoop 3 (str "A") ⟨[], [], 0⟩
    (0, ⟨[⟨str "A", 1, false, false, false, none, none, none⟩],
      [(str "A", 0)], 1⟩) (by decide)

/-- C7: variant construction sets `variantIdx` to the first alternative
whose canonical string equals the tag, errors exactly when no alternative
matches, and a successful index is always within the declared list; on
`[int8, string]`, tag `string` yields index 1 and tag `bool` errors. -/
theorem claim_C7_variant_construction :
    (∀ (D V : Type) (abiVariant : List D) (render : D → Str) (tag : Str)
        (payload : V),
      ((∃ e, variantMake abiVariant render tag payload = Except.error e)
          ↔ tag ∉ abiVariant.map render) ∧
      (∀ v, variantMake abiVariant render tag payload = Except.ok v →
        v.value = payload ∧ v.variantIdx < abiVariant.length ∧
        (abiVariant.map render)[v.variantIdx]? = some tag ∧
        ∀ j, j < v.variantIdx →
          (abiVariant.map render)[j]? ≠ some tag)) ∧
    variantMake [str "int8", str "string"] (fun d => d) (str "string")
      (42 : Nat) = Except.ok ⟨42, 1⟩ ∧
    variantMake [str "int8", str "string"] (fun d => d) (str "bool")
      (42 : Nat)
      = Except.error (str "Unknown variant " ++ str "bool") := by
  refine ⟨?_, by rfl, by rfl⟩
  intro D V abiVariant render tag payload
  cases hidx : (abiVariant.map render).findIdx? (fun t => t = tag) with
  | none =>
    have herr := variantMake_of_findIdx_none payload hidx
    constructor
    · constructor
      · intro _
        rw [List.findIdx?_eq_none_iff] at hidx
        intro hmem
        have := hidx tag hmem
        simp at this
      · intro _
        exact ⟨_, herr⟩
    · intro v hv
      rw [herr] at hv
      cases hv
  | some i =>
    have hok := variantMake_of_findIdx payload hidx
    obtain ⟨hlen, hp, hmin⟩ := List.findIdx?_eq_some_iff_getElem.mp hidx
    have hilt : i < abiVariant.length := by rwa [List.length_map] at hlen
    have htag : (abiVariant.map render)[i] = tag := of_decide_eq_true hp
    constructor
    · constructor
      · rintro ⟨e, he⟩
        rw [hok] at he
        cases he
      · intro hnot
        exfalso
        apply hnot
        rw [← htag]
        exact List.getElem_mem _
    · intro v hv
      rw [hok] at hv
      cases hv
      refine ⟨rfl, hilt, ?_, ?_⟩
      · rw [List.getElem?_eq_getElem hlen, htag]
      · intro j hj hcon
        have hjlt : j < (abiVariant.map render).length := hj.trans hlen
        rw [List.getElem?_eq_getElem hjlt] at hcon
        have : (abiVariant.map render)[j] = tag := Option.some.inj hcon
        have hpj := hmin j hj
        rw [this] at hpj
        simp at hpj

/-- Witness for C7: an unmatched tag produces the error. -/
theorem claim_C7_witness :
    ∃ e, variantMake [str "a"] (fun d => d) (str "b") (0 : Nat)
      = Except.error e :=
  ((claim_C7_variant_construction.1 Str Nat [str "a"] (fun d => d)
    (str "b") 0).1).mpr (by decide)

/-- C8: for every tag present in the rendered alternative list,
construction succeeds and `variantName` returns exactly the original
tag. -/
theorem claim_C8_variantName_inverse (D V : Type) (abiVariant : List D)
    (render : D → Str) (tag : Str) (payload : V)
    (hmem : tag ∈ abiVariant.map render) :
    ∃ v, variantMake abiVariant render tag payload = Except.ok v ∧
      variantName abiVariant render v = tag := by
  cases hidx : (abiVariant.map render).findIdx? (fun t => t = tag) with
  | none =>
    exfalso
    rw [List.findIdx?_eq_none_iff] at hidx
    have := hidx tag hmem
    simp at this
  | some i =>
    exact ⟨⟨payload, i⟩, variantMake_of_findIdx payload hidx,
      variantName_of_findIdx payload hidx⟩

/-- Witness for C8 at the `[int8, string]` example. -/
theorem claim_C8_witness :
    str "string" ∈ [str "int8", str "string"].map (fun d => d) ∧
    ∃ v, variantMake [str "int8", str "string"] (fun d => d)
        (str "string") (7 : Nat) = Except.ok v ∧
      variantName [str "int8", str "string"] (fun d => d) v
        = str "string" :=
  ⟨by decide, claim_C8_variantName_inverse Str Nat [str "int8", str "string"]
    (fun d => d) (str "string") 7 (by decide)⟩

/-- C9: the JSON projection of every variant value is exactly the
ordered pair `[variantName, value]`; for a value constructed from
`(tag, payload)` that pair is `[tag, payload]`. -/
theorem claim_C9_toJSON_pair :
    (∀ (D V : Type) (abiVariant : List D) (render : D → Str)
        (v : VariantVal V),
      variantToJSON abiVariant render v
        = (variantName abiVariant render v, v.value)) ∧
    (∀ (D V : Type) (abiVariant : List D) (render : D → Str) (tag : Str)
        (payload : V) (v : VariantVal V),
      variantMake abiVariant render tag payload = Except.ok v →
      variantToJSON abiVariant render v = (tag, payload)) := by
  constructor
  · intro D V abiVariant render v
    rfl
  · intro D V abiVariant render tag payload v hv
    cases hidx : (abiVariant.map render).findIdx? (fun t => t = tag) with
    | none =>
      rw [variantMake_of_findIdx_none payload hidx] at hv
      cases hv
    | some i =>
      rw [variantMake_of_findIdx payload hidx] at hv
      cases hv
      unfold variantToJSON
      rw [variantName_of_findIdx payload hidx]

/-- Witness for C9 at the `[int8, string]` example. -/
theorem claim_C9_witness :
    variantToJSON [str "int8", str "string"] (fun d => d)
      (⟨(5 : Nat), 1⟩ : VariantVal Nat) = (str "string", 5) :=
  claim_C9_toJSON_pair.2 Str Nat [str "int8", str "string"] (fun d => d)
    (str "string") 5 ⟨5, 1⟩ (by rfl)

/-- C10: parse-then-render is the identity on every input string —
out-of-order suffixes simply stay inside the base name — so the
resolver's cache key (the node's typeName) always equals the requested
full name; `foo$?` keeps `$` in its base name and round-trips. -/
theorem claim_C10_parse_render_identity :
    (∀ (s : Str) (id : Nat), (ResolvedType.make s id).typeName = s) ∧
    (ResolvedType.make (str "foo$?") 1).name = str "foo$" ∧
    (ResolvedType.make (str "foo$?") 1).isOptional = true ∧
    (ResolvedType.make (str "foo$?") 1).isExtension = false ∧
    (ResolvedType.make (str "foo$?") 1).typeName = str "foo$?" :=
  ⟨typeName_make, by decide, by decide, by decide, by decide⟩

end Abi
